import Mathlib

/-!
Verification of `src/bin/atomicblastplus.py` (Atomic Blast+ v5.0).

This file gives a shallow embedding, in Lean, of the parts of the script that
the specification talks about:

* `read_fasta_file_handle` — the streaming FASTA reader (lines 112-136);
* `format_seq` / `wrapChunks` — 80-column sequence re-wrapping (lines 138-145);
* `split_multifasta_by_increment` — the partitioner (lines 147-180);
* the `nb_seq` derivation from a requested `nb_file` (lines 265-274);
* job-id extraction from the scheduler acknowledgment (line 400);
* the shell-glob ordering used by the concatenation commands (lines 407-413);
* the `cat` / pairwise-`awk` aggregation of per-task artifacts (lines 402-413);
* the step-3 control flow of `main` (submission, concatenation loop, cleanup,
  final status message, lines 370-441).

Files are modelled as lists of newline-stripped lines (`List (List Char)`);
Python strings are modelled as `List Char`.  External commands are modelled by
their observable exit codes, supplied by an `Env` value.
-/

/-- Python `str.strip()` / `str.rstrip()` whitespace set (Python 2 `string.whitespace`). -/
def pyIsSpace (c : Char) : Bool :=
  c = ' ' || c = '\t' || c = '\n' || c = '\r' || c = '\x0b' || c = '\x0c'

/-- Python `str.rstrip()` on a char list. -/
def pyRstripL (l : List Char) : List Char :=
  (l.reverse.dropWhile pyIsSpace).reverse

/-- Python `str.strip()` on a char list. -/
def pyStripL (l : List Char) : List Char :=
  pyRstripL (l.dropWhile pyIsSpace)

/-- A FASTA record as yielded by the reader: `(header, sequence)`. -/
abbrev FastaRecord := List Char × List Char

/-- The test `line[0] == '>'` of `read_fasta_file_handle` (file lines are never empty
in Python; an empty modelled line corresponds to a bare `"\n"`, whose first char
is not `'>'`). -/
def isHeaderLine (l : List Char) : Bool := l.head? == some '>'

/-- State-passing translation of the generator loop of `read_fasta_file_handle`
(lines 121-134).  `header` and `seqlines` are the local variables; `started`
is the truthiness of `sequence_nb` (the only use made of the counter).  Note
that `seqlines` is cleared only when a record is yielded, so lines seen before
the first header stay in `seqlines` — exactly as in the source. -/
def readFastaAux : List (List Char) → List Char → List (List Char) → Bool → List FastaRecord
  | [], header, seqlines, _ => [(header, seqlines.flatten)]
  | line :: rest, header, seqlines, started =>
    if isHeaderLine line then
      if started then
        (header, seqlines.flatten) :: readFastaAux rest (pyRstripL (line.drop 1)) [] true
      else
        readFastaAux rest (pyRstripL (line.drop 1)) seqlines true
    else
      readFastaAux rest header (seqlines ++ [pyStripL line]) started

/-- `read_fasta_file_handle` on a file given as its (newline-stripped) lines.
The final `yield` is unconditional, so even an empty file produces one record. -/
def read_fasta_file_handle (lines : List (List Char)) : List FastaRecord :=
  readFastaAux lines [] [] false

/-- `format_seq(seq, linereturn=80)` (lines 138-145), as the list of emitted
chunk lines: `seq[i:i+80]` for `i = 0, 80, 160, ...`. -/
def wrapChunks : List Char → List (List Char)
  | [] => []
  | c :: cs => (c :: cs.take 79) :: wrapChunks (cs.drop 79)
  termination_by l => l.length
  decreasing_by simp; omega

/-- The lines written to a unit file for one record (lines 174-175): the header
line `">" + header`, the chunk lines of `format_seq`, and — because line 175
appends one more `"\n"` after `format_seq`'s output — a trailing empty line. -/
def recordLines (r : FastaRecord) : List (List Char) :=
  ('>' :: r.1) :: (wrapChunks r.2 ++ [[]])

/-- The full line content of one unit file as written by the partitioner. -/
def unitLines (u : List FastaRecord) : List (List Char) :=
  (u.map recordLines).flatten

/-- Loop state of `split_multifasta_by_increment`: the closed unit files, the
currently open unit file, and `sequence_nb`. -/
structure SplitState where
  closed : List (List FastaRecord)
  cur : List FastaRecord
  sequence_nb : Nat
  deriving DecidableEq

/-- One iteration of the loop of `split_multifasta_by_increment` (lines 156-176):
when `sequence_nb % max_nb_seq == 0` the previous unit (if a unit is open, i.e.
`subfile_nb` is non-zero, equivalently `sequence_nb` is non-zero) is closed and
a fresh one is opened; the record is then written to the open unit. -/
def splitStep (max_nb_seq : Nat) (st : SplitState) (r : FastaRecord) : SplitState :=
  if st.sequence_nb % max_nb_seq == 0 then
    { closed := if st.sequence_nb == 0 then st.closed else st.closed ++ [st.cur],
      cur := [r],
      sequence_nb := st.sequence_nb + 1 }
  else
    { st with cur := st.cur ++ [r], sequence_nb := st.sequence_nb + 1 }

/-- Closing of the last open unit at loop end; if no record was ever read no
unit file was ever created. -/
def splitFinalize (st : SplitState) : List (List FastaRecord) :=
  if st.sequence_nb == 0 then [] else st.closed ++ [st.cur]

/-- `split_multifasta_by_increment` (lines 147-180), as the list of unit files
it produces (each unit is the list of records written to it).  The returned
`subfile_nb` of the source is the length of this list. -/
def split_multifasta_by_increment (max_nb_seq : Nat) (records : List FastaRecord) :
    List (List FastaRecord) :=
  splitFinalize (records.foldl (splitStep max_nb_seq) ⟨[], [], 0⟩)

theorem splitStep_join (m : Nat) (st : SplitState) (r : FastaRecord)
    (hw : st.sequence_nb = 0 → st.closed = []) :
    (splitFinalize (splitStep m st r)).flatten = (splitFinalize st).flatten ++ [r] := by
  rcases st with ⟨closed, cur, n⟩
  unfold splitStep splitFinalize
  by_cases h0 : n = 0
  · subst h0; simp [hw rfl]
  · by_cases hm : n % m == 0 <;> simp [hm, h0, List.flatten_append]

theorem splitFoldl_join (m : Nat) (rs : List FastaRecord) :
    ∀ st : SplitState, (st.sequence_nb = 0 → st.closed = []) →
      (splitFinalize (rs.foldl (splitStep m) st)).flatten = (splitFinalize st).flatten ++ rs := by
  induction rs with
  | nil => intro st _; simp
  | cons r rs ih =>
      intro st hw
      have hstep : (splitStep m st r).sequence_nb = 0 → (splitStep m st r).closed = [] := by
        rcases st with ⟨closed, cur, n⟩
        unfold splitStep
        by_cases hm : n % m == 0 <;> simp [hm]
      have := ih (splitStep m st r) hstep
      simp only [List.foldl_cons, this, splitStep_join m st r hw]
      simp

/-- The partitioner loses, duplicates and reorders nothing: the concatenation of
the produced units is the input record list. -/
theorem split_join (m : Nat) (records : List FastaRecord) :
    (split_multifasta_by_increment m records).flatten = records := by
  have := splitFoldl_join m records ⟨[], [], 0⟩ (fun _ => rfl)
  simpa [split_multifasta_by_increment, splitFinalize] using this

/-- Number of units opened by the loop while processing `len` records starting
from `sequence_nb = n` (a unit is opened exactly when `n % m == 0`, line 158). -/
def newOpensFrom (m n len : Nat) : Nat :=
  match len with
  | 0 => 0
  | l + 1 => (if n % m == 0 then 1 else 0) + newOpensFrom m (n + 1) l

theorem newOpensFrom_succ_right (m : Nat) :
    ∀ len n, newOpensFrom m n (len + 1) =
      newOpensFrom m n len + (if (n + len) % m == 0 then 1 else 0) := by
  intro len
  induction len with
  | zero => intro n; simp [newOpensFrom]
  | succ l ih =>
      intro n
      rw [newOpensFrom, ih (n + 1), newOpensFrom]
      have he : n + 1 + l = n + (l + 1) := by omega
      rw [he]
      omega

theorem ceilDiv_succ_aux (m l : Nat) (hm : 1 ≤ m) :
    (l + m - 1) / m + (if l % m == 0 then 1 else 0) = (l + m) / m := by
  obtain ⟨q, r, hlt, rfl⟩ : ∃ q r, r < m ∧ l = m * q + r :=
    ⟨l / m, l % m, Nat.mod_lt _ (by omega), (Nat.div_add_mod l m).symm⟩
  have hmod : (m * q + r) % m = r := by rw [Nat.mul_add_mod, Nat.mod_eq_of_lt hlt]
  rcases Nat.eq_zero_or_pos r with hz | hpos
  · subst hz
    have h1 : m * q + 0 + m - 1 = m * q + (m - 1) := by
      rw [Nat.add_zero, Nat.add_sub_assoc hm]
    have h2 : m * q + 0 + m = m * q + m := by rw [Nat.add_zero]
    rw [hmod, h1, h2, Nat.mul_add_div (by omega), Nat.mul_add_div (by omega),
      Nat.div_eq_of_lt (by omega), Nat.div_self (by omega)]
    simp
  · have h1 : m * q + r + m - 1 = m * q + (r - 1 + m) := by
      rw [Nat.add_assoc, Nat.add_sub_assoc (by omega)]
      congr 1
      omega
    have h2 : m * q + r + m = m * q + (r + m) := by rw [Nat.add_assoc]
    rw [hmod, h1, h2, Nat.mul_add_div (by omega), Nat.mul_add_div (by omega),
      Nat.add_div_right _ (by omega), Nat.add_div_right _ (by omega),
      Nat.div_eq_of_lt (by omega), Nat.div_eq_of_lt (by omega)]
    have : r ≠ 0 := by omega
    simp [this]

theorem newOpensFrom_eq_ceilDiv (m : Nat) (hm : 1 ≤ m) :
    ∀ len, newOpensFrom m 0 len = (len + m - 1) / m := by
  intro len
  induction len with
  | zero =>
      have h0 : (m - 1) / m = 0 := Nat.div_eq_of_lt (by omega)
      simp [newOpensFrom, h0]
  | succ l ih =>
      rw [newOpensFrom_succ_right, ih, Nat.zero_add, ceilDiv_succ_aux m l hm]
      congr 1
      omega

/-- Unit count recorded in a loop state (closed units plus the open one). -/
def splitCount (st : SplitState) : Nat :=
  if st.sequence_nb == 0 then 0 else st.closed.length + 1

theorem splitFinalize_length (st : SplitState) :
    (splitFinalize st).length = splitCount st := by
  rcases st with ⟨closed, cur, n⟩
  by_cases h : n = 0 <;> simp [splitFinalize, splitCount, h]

theorem splitFoldl_count (m : Nat) (rs : List FastaRecord) :
    ∀ st : SplitState, (st.sequence_nb = 0 → st.closed = []) →
      splitCount (rs.foldl (splitStep m) st) =
        splitCount st + newOpensFrom m st.sequence_nb rs.length := by
  induction rs with
  | nil => intro st _; simp [newOpensFrom]
  | cons r rs ih =>
      intro st hw
      have hwstep : (splitStep m st r).sequence_nb = 0 → (splitStep m st r).closed = [] := by
        rcases st with ⟨closed, cur, n⟩
        unfold splitStep
        by_cases hm : n % m == 0 <;> simp [hm]
      rw [List.foldl_cons, ih _ hwstep]
      have hstep : splitCount (splitStep m st r) =
          splitCount st + (if st.sequence_nb % m == 0 then 1 else 0) := by
        rcases st with ⟨closed, cur, n⟩
        have hw2 : n = 0 → closed = [] := hw
        unfold splitStep splitCount
        by_cases h0 : n = 0
        · subst h0; simp [hw2 rfl]
        · by_cases hm : n % m == 0 <;> simp [hm, h0]
      have hseq : (splitStep m st r).sequence_nb = st.sequence_nb + 1 := by
        rcases st with ⟨closed, cur, n⟩
        unfold splitStep
        by_cases hm : n % m == 0 <;> simp [hm]
      rw [hstep, hseq, List.length_cons, newOpensFrom]
      omega

/-- The number of unit files produced by the partitioner is the rounded-up
quotient of the record count by `max_nb_seq`. -/
theorem split_length (m : Nat) (hm : 1 ≤ m) (records : List FastaRecord) :
    (split_multifasta_by_increment m records).length =
      (records.length + m - 1) / m := by
  rw [split_multifasta_by_increment, splitFinalize_length,
    splitFoldl_count m records ⟨[], [], 0⟩ (fun _ => rfl),
    newOpensFrom_eq_ceilDiv m hm]
  simp [splitCount]

/-- Derivation of `nb_seq` when `--nb_file` is given (lines 265-274):
`nb_seq = n / float(k)`; if it has a non-zero fractional part, add 1;
then truncate with `int()`.  Exact rational arithmetic stands in for the
script's binary floating point (exact at the magnitudes of record counts). -/
def derived_nb_seq (n k : Nat) : Int :=
  let q : ℚ := (n : ℚ) / (k : ℚ)
  if Int.fract q ≠ 0 then ⌊q + 1⌋ else ⌊q⌋

theorem derived_nb_seq_eq_ceil (n k : Nat) (_hk : 1 ≤ k) :
    derived_nb_seq n k = ⌈(n : ℚ) / (k : ℚ)⌉ := by
  unfold derived_nb_seq
  set q : ℚ := (n : ℚ) / (k : ℚ) with hq
  by_cases hf : Int.fract q = 0
  · obtain ⟨-, -, z, hz⟩ := Int.fract_eq_iff.mp hf
    rw [sub_zero] at hz
    simp [hf, hz, Int.floor_intCast, Int.ceil_intCast]
  · have hne : q ≠ (⌊q⌋ : ℚ) := by
      intro h
      exact hf (Int.fract_eq_iff.mpr ⟨le_refl 0, zero_lt_one, ⟨⌊q⌋, by rw [sub_zero]; exact h⟩⟩)
    have hlow : ⌊q⌋ + 1 ≤ ⌈q⌉ := by
      have h1 : ⌊q⌋ ≤ ⌈q⌉ := Int.floor_le_ceil q
      rcases lt_or_eq_of_le h1 with h2 | h2
      · omega
      · exfalso
        apply hne
        have h3 : (⌊q⌋ : ℚ) ≤ q := Int.floor_le q
        have h4 : q ≤ (⌈q⌉ : ℚ) := Int.le_ceil q
        rw [← h2] at h4
        exact le_antisymm h4 h3
    have hhigh : ⌈q⌉ ≤ ⌊q⌋ + 1 := Int.ceil_le_floor_add_one q
    have hceil : ⌈q⌉ = ⌊q⌋ + 1 := le_antisymm hhigh hlow
    simp [hf, hceil, Int.floor_add_one]

/-- The derived `nb_seq` as a natural number (the script stores it back into
`args.nb_seq`, a non-negative int). -/
def derivedSizeNat (n k : Nat) : Nat := (derived_nb_seq n k).toNat

theorem ceil_div_cast (n k : Nat) (hk : 1 ≤ k) :
    ⌈(n : ℚ) / (k : ℚ)⌉ = (((n + k - 1) / k : Nat) : Int) := by
  have hkq : (0 : ℚ) < (k : ℚ) := by exact_mod_cast hk
  have hdm := Nat.div_add_mod (n + k - 1) k
  have hmod := Nat.mod_lt (n + k - 1) (y := k) (by omega)
  set M : Nat := (n + k - 1) / k with hM
  have h1 : n ≤ k * M := by omega
  have h2 : k * M + 1 ≤ n + k := by omega
  have hc1 : (n : ℚ) ≤ (k : ℚ) * (M : ℚ) := by exact_mod_cast h1
  have hc2 : (k : ℚ) * (M : ℚ) + 1 ≤ (n : ℚ) + (k : ℚ) := by exact_mod_cast h2
  rw [Int.ceil_eq_iff]
  constructor
  · rw [lt_div_iff hkq]
    push_cast
    nlinarith [hkq]
  · rw [div_le_iff hkq]
    push_cast
    nlinarith [hkq]

theorem derivedSizeNat_eq (n k : Nat) (hk : 1 ≤ k) :
    derivedSizeNat n k = (n + k - 1) / k := by
  unfold derivedSizeNat
  rw [derived_nb_seq_eq_ceil n k hk, ceil_div_cast n k hk]
  exact Int.toNat_natCast _

theorem dropWhile_eq_self_of_not (p : Char → Bool) (l : List Char)
    (h : ∀ c ∈ l, p c = false) : l.dropWhile p = l := by
  cases l with
  | nil => rfl
  | cons c cs => rw [List.dropWhile_cons, h c (by simp)]; simp

theorem pyStripL_eq_self (l : List Char) (h : ∀ c ∈ l, pyIsSpace c = false) :
    pyStripL l = l := by
  unfold pyStripL pyRstripL
  rw [dropWhile_eq_self_of_not _ _ h,
    dropWhile_eq_self_of_not _ _ (by intro c hc; exact h c (List.mem_reverse.mp hc)),
    List.reverse_reverse]

theorem wrapChunks_flatten (cs : List Char) : (wrapChunks cs).flatten = cs := by
  induction cs using wrapChunks.induct with
  | case1 => simp [wrapChunks]
  | case2 c cs ih =>
      rw [wrapChunks]
      simp only [List.flatten_cons, ih]
      simp

theorem wrapChunks_mem (cs : List Char) :
    ∀ l ∈ wrapChunks cs, l ≠ [] ∧ ∀ c ∈ l, c ∈ cs := by
  induction cs using wrapChunks.induct with
  | case1 => simp [wrapChunks]
  | case2 c cs ih =>
      rw [wrapChunks]
      intro l hl
      rcases List.mem_cons.mp hl with h | h
      · subst h
        refine ⟨by simp, ?_⟩
        intro x hx
        rcases List.mem_cons.mp hx with h | h
        · simp [h]
        · exact List.mem_cons_of_mem _ (List.take_subset _ _ h)
      · obtain ⟨hne, hsub⟩ := ih l h
        exact ⟨hne, fun x hx => List.mem_cons_of_mem _ (List.drop_subset _ _ (hsub x hx))⟩

/-- Processing a run of non-header lines just appends their stripped forms to
`seqlines`. -/
theorem readFastaAux_nonheader (ls : List (List Char))
    (h : ∀ l ∈ ls, isHeaderLine l = false) :
    ∀ rest header seqlines started,
      readFastaAux (ls ++ rest) header seqlines started =
        readFastaAux rest header (seqlines ++ ls.map pyStripL) started := by
  induction ls with
  | nil => intro rest header seqlines started; simp
  | cons l ls ih =>
      intro rest header seqlines started
      have hl : isHeaderLine l = false := h l (by simp)
      rw [List.cons_append, readFastaAux, if_neg (by simp [hl]),
        ih (fun x hx => h x (List.mem_cons_of_mem _ hx))]
      simp

/-- A record is *clean* when writing it and re-reading it is loss-free: the
header has no trailing whitespace and no newline, and the sequence contains no
whitespace and no `'>'`. -/
def cleanRecord (r : FastaRecord) : Prop :=
  pyRstripL r.1 = r.1 ∧ (∀ c ∈ r.1, c ≠ '\n') ∧
    (∀ c ∈ r.2, pyIsSpace c = false ∧ c ≠ '>')

instance (r : FastaRecord) : Decidable (cleanRecord r) := by
  unfold cleanRecord; infer_instance

theorem readFastaAux_record (r : FastaRecord) (hc : cleanRecord r)
    (rest : List (List Char)) (header : List Char) (seqlines : List (List Char)) :
    readFastaAux (recordLines r ++ rest) header seqlines true =
      (header, seqlines.flatten) :: readFastaAux rest r.1 (wrapChunks r.2 ++ [[]]) true := by
  obtain ⟨hh, -, hs⟩ := hc
  have hnh : ∀ l ∈ wrapChunks r.2 ++ [[]], isHeaderLine l = false := by
    intro l hl
    rcases List.mem_append.mp hl with h | h
    · obtain ⟨hne, hsub⟩ := wrapChunks_mem r.2 l h
      cases l with
      | nil => simp at hne
      | cons c cs =>
          have := (hs c (hsub c (by simp))).2
          simp [isHeaderLine, this]
    · simp at h; simp [h, isHeaderLine]
  have hmap : (wrapChunks r.2 ++ [[]]).map pyStripL = wrapChunks r.2 ++ [[]] := by
    have h1 : ∀ l ∈ wrapChunks r.2, pyStripL l = l := by
      intro l hl
      obtain ⟨-, hsub⟩ := wrapChunks_mem r.2 l hl
      exact pyStripL_eq_self l (fun c hc => (hs c (hsub c hc)).1)
    rw [List.map_append, List.map_congr_left h1]
    simp [pyStripL, pyRstripL]
  rw [recordLines, List.cons_append, readFastaAux,
    if_pos (by simp [isHeaderLine]), if_pos rfl]
  rw [List.drop_one, List.tail_cons, hh, readFastaAux_nonheader _ hnh, hmap]
  simp

theorem readFastaAux_unit (u : List FastaRecord) :
    (∀ r ∈ u, cleanRecord r) →
    ∀ header seqlines,
      readFastaAux (unitLines u) header seqlines true =
        (header, seqlines.flatten) :: u := by
  induction u with
  | nil => intro _ header seqlines; simp [unitLines, readFastaAux]
  | cons r u ih =>
      intro hc header seqlines
      have hcr : cleanRecord r := hc r (by simp)
      rw [unitLines, List.map_cons, List.flatten_cons,
        readFastaAux_record r hcr _ header seqlines,
        show (u.map recordLines).flatten = unitLines u from rfl,
        ih (fun x hx => hc x (List.mem_cons_of_mem _ hx))]
      have : (wrapChunks r.2 ++ [[]]).flatten = r.2 := by
        simp [wrapChunks_flatten]
      rw [this]

/-- Re-reading one unit file written by the partitioner recovers exactly the
records written to it. -/
theorem read_unit_roundtrip (u : List FastaRecord) (hne : u ≠ [])
    (hc : ∀ r ∈ u, cleanRecord r) :
    read_fasta_file_handle (unitLines u) = u := by
  cases u with
  | nil => exact absurd rfl hne
  | cons r u =>
      have hcr : cleanRecord r := hc r (by simp)
      obtain ⟨hh, -, hs⟩ := hcr
      have hnh : ∀ l ∈ wrapChunks r.2 ++ [[]], isHeaderLine l = false := by
        intro l hl
        rcases List.mem_append.mp hl with h | h
        · obtain ⟨hne2, hsub⟩ := wrapChunks_mem r.2 l h
          cases l with
          | nil => simp at hne2
          | cons c cs =>
              have := (hs c (hsub c (by simp))).2
              simp [isHeaderLine, this]
        · simp at h; simp [h, isHeaderLine]
      have hmap : (wrapChunks r.2 ++ [[]]).map pyStripL = wrapChunks r.2 ++ [[]] := by
        have h1 : ∀ l ∈ wrapChunks r.2, pyStripL l = l := by
          intro l hl
          obtain ⟨-, hsub⟩ := wrapChunks_mem r.2 l hl
          exact pyStripL_eq_self l (fun c hc2 => (hs c (hsub c hc2)).1)
        rw [List.map_append, List.map_congr_left h1]
        simp [pyStripL, pyRstripL]
      rw [read_fasta_file_handle, unitLines, List.map_cons, List.flatten_cons,
        recordLines, List.cons_append, readFastaAux,
        if_pos (by simp [isHeaderLine]), if_neg (by simp),
        List.drop_one, List.tail_cons, hh, readFastaAux_nonheader _ hnh, hmap,
        show (u.map recordLines).flatten = unitLines u from rfl,
        readFastaAux_unit u (fun x hx => hc x (List.mem_cons_of_mem _ hx))]
      have : (wrapChunks r.2 ++ [[]]).flatten = r.2 := by
        simp [wrapChunks_flatten]
      rw [List.nil_append, this]

/-- Every unit file the partitioner creates receives at least one record. -/
theorem split_units_nonempty (m : Nat) (records : List FastaRecord) :
    ∀ u ∈ split_multifasta_by_increment m records, u ≠ [] := by
  have inv : ∀ rs : List FastaRecord, ∀ st : SplitState,
      ((∀ u ∈ st.closed, u ≠ []) ∧ (st.sequence_nb ≠ 0 → st.cur ≠ [])) →
      let st2 := rs.foldl (splitStep m) st
      (∀ u ∈ st2.closed, u ≠ []) ∧ (st2.sequence_nb ≠ 0 → st2.cur ≠ []) := by
    intro rs
    induction rs with
    | nil => intro st h; exact h
    | cons r rs ih =>
        intro st h
        apply ih
        rcases st with ⟨closed, cur, n⟩
        obtain ⟨h1, h2⟩ := h
        unfold splitStep
        by_cases hm : n % m == 0
        · simp only [hm, if_pos]
          refine ⟨?_, fun _ => by simp⟩
          by_cases h0 : n == 0
          · simpa [h0] using h1
          · simp only [h0, if_neg]
            intro u hu
            rcases List.mem_append.mp hu with h | h
            · exact h1 u h
            · simp at h
              subst h
              exact h2 (by simpa using h0)
        · simp only [hm, if_neg]
          refine ⟨h1, fun _ => by simp⟩
  intro u hu
  have := inv records ⟨[], [], 0⟩ ⟨by simp, fun h => absurd rfl h⟩
  obtain ⟨h1, h2⟩ := this
  rw [split_multifasta_by_increment, splitFinalize] at hu
  split at hu
  · simp at hu
  · rcases List.mem_append.mp hu with h | h
    · exact h1 u h
    · simp at h
      subst h
      apply h2
      intro hzero
      rename_i hcond
      simp [hzero] at hcond

/-- C5: when only `unit_count` (`--nb_file`) is given, the derived unit size
(`args.nb_seq`, lines 265-274) equals `ceil(total_records / unit_count)`. -/
theorem claim_C5_derived_unit_size (n k : Nat) (_hn : 1 ≤ n) (hk : 1 ≤ k) :
    derived_nb_seq n k = ⌈(n : ℚ) / (k : ℚ)⌉ :=
  derived_nb_seq_eq_ceil n k hk

theorem claim_C5_witness :
    derived_nb_seq 105 3 = ⌈(105 : ℚ) / (3 : ℚ)⌉ ∧
      derived_nb_seq 105 3 = 35 ∧ derived_nb_seq 10 3 = 4 :=
  ⟨claim_C5_derived_unit_size 105 3 (by decide) (by decide),
    by norm_num [derived_nb_seq, Int.fract], by norm_num [derived_nb_seq, Int.fract]⟩

/-- C3: with the unit size derived from a requested unit count `k` (and a
pre-scan record count `n` at least the number of parsed records), the
partitioner realizes at most `k` unit files. -/
theorem claim_C3_unit_count (records : List FastaRecord) (n k : Nat)
    (hk : 1 ≤ k) (hr : 1 ≤ records.length) (hn : records.length ≤ n) :
    (split_multifasta_by_increment (derivedSizeNat n k) records).length ≤ k := by
  have hs : derivedSizeNat n k = (n + k - 1) / k := derivedSizeNat_eq n k hk
  have hs1 : 1 ≤ derivedSizeNat n k := by
    rw [hs, Nat.one_le_div_iff (by omega)]
    omega
  rw [split_length _ hs1]
  have hks : n ≤ k * derivedSizeNat n k := by
    rw [hs]
    have hdm := Nat.div_add_mod (n + k - 1) k
    have hmod := Nat.mod_lt (n + k - 1) (y := k) (by omega)
    omega
  rw [Nat.div_le_iff_le_mul_add_pred (by omega)]
  have hmul : records.length ≤ derivedSizeNat n k * k := by
    calc records.length ≤ n := hn
    _ ≤ k * derivedSizeNat n k := hks
    _ = derivedSizeNat n k * k := Nat.mul_comm k _
  omega

theorem claim_C3_witness :
    (split_multifasta_by_increment (derivedSizeNat 5 2)
      (List.replicate 5 ((['x'], ['A']) : FastaRecord))).length ≤ 2 :=
  claim_C3_unit_count _ 5 2 (by decide) (by decide) (by decide)

/-- C7: partitioning conserves records: unit sizes sum to the input size, the
units concatenate back to the input (each record in exactly one unit, order
kept), and re-reading the written unit files in unit order yields the original
records with headers and sequences intact (for records that the FASTA text
format can represent losslessly). -/
theorem claim_C7_partition_preserves (m : Nat) (records : List FastaRecord)
    (_hm : 1 ≤ m) (hc : ∀ r ∈ records, cleanRecord r) :
    ((split_multifasta_by_increment m records).map List.length).sum = records.length ∧
    (split_multifasta_by_increment m records).flatten = records ∧
    ((split_multifasta_by_increment m records).map
        (fun u => read_fasta_file_handle (unitLines u))).flatten = records := by
  have hj := split_join m records
  refine ⟨?_, hj, ?_⟩
  · have hlen := List.length_flatten (split_multifasta_by_increment m records)
    rw [hj] at hlen
    exact hlen.symm
  · have hmap : (split_multifasta_by_increment m records).map
        (fun u => read_fasta_file_handle (unitLines u)) =
        (split_multifasta_by_increment m records).map (fun u => u) := by
      apply List.map_congr_left
      intro u hu
      have hne := split_units_nonempty m records u hu
      have hcu : ∀ r ∈ u, cleanRecord r := by
        intro r hr
        apply hc
        rw [← hj]
        exact List.mem_flatten.mpr ⟨u, hu, hr⟩
      exact read_unit_roundtrip u hne hcu
    rw [hmap, List.map_id', hj]

theorem claim_C7_witness :
    ((split_multifasta_by_increment 2
        [((['h'], ['A', 'C', 'G']) : FastaRecord), (['i'], ['T']), (['j'], ['G'])]).map
      List.length).sum = 3 ∧
    (split_multifasta_by_increment 2
        [((['h'], ['A', 'C', 'G']) : FastaRecord), (['i'], ['T']), (['j'], ['G'])]).flatten =
      [(['h'], ['A', 'C', 'G']), (['i'], ['T']), (['j'], ['G'])] ∧
    ((split_multifasta_by_increment 2
        [((['h'], ['A', 'C', 'G']) : FastaRecord), (['i'], ['T']), (['j'], ['G'])]).map
      (fun u => read_fasta_file_handle (unitLines u))).flatten =
      [(['h'], ['A', 'C', 'G']), (['i'], ['T']), (['j'], ['G'])] :=
  claim_C7_partition_preserves 2 _ (by decide) (by decide)

/-- C10: the reader always yields at least one record — on an empty stream, or
a stream with no header line, it yields exactly one record with empty header
and the stripped non-header lines joined as its sequence; hence the
partitioner on an empty input creates one unit file and realizes count 1. -/
theorem claim_C10_reader_total :
    read_fasta_file_handle [] = [(([] : List Char), ([] : List Char))] ∧
    (∀ lines : List (List Char), (∀ l ∈ lines, isHeaderLine l = false) →
      read_fasta_file_handle lines = [([], (lines.map pyStripL).flatten)]) ∧
    (∀ m : Nat, 1 ≤ m →
      split_multifasta_by_increment m (read_fasta_file_handle []) = [[([], [])]]) := by
  refine ⟨rfl, ?_, ?_⟩
  · intro lines h
    rw [read_fasta_file_handle, ← List.append_nil lines,
      readFastaAux_nonheader lines h, readFastaAux]
    simp
  · intro m _
    simp [read_fasta_file_handle, readFastaAux, split_multifasta_by_increment,
      splitStep, splitFinalize, Nat.zero_mod]

theorem claim_C10_witness :
    read_fasta_file_handle [['A', 'C']] = [(([] : List Char), ['A', 'C'])] ∧
    split_multifasta_by_increment 50 (read_fasta_file_handle []) = [[([], [])]] := by
  constructor
  · have h := claim_C10_reader_total.2.1 [['A', 'C']] (by decide)
    rw [h]
    decide
  · exact claim_C10_reader_total.2.2 50 (by decide)

/-- Longest run of ASCII digits at the head of a char list (the greedy first
step of a `\d+` match; Python 2 `\d` is `[0-9]`). -/
def digitRun : List Char → Nat
  | [] => 0
  | c :: cs => if c.isDigit then digitRun cs + 1 else 0

/-- Matcher for the regex tail `\d+-\d+:.*` (from the pattern
`Your job-array (\d+).\d+-\d+:.*` of line 400).  Because `'-'` and `':'` are
not digits, backtracking inside `\d+` can never help, so each `\d+` consumes
exactly its maximal run. -/
def matchDashTail (cs : List Char) : Bool :=
  let n1 := digitRun cs
  if n1 = 0 then false
  else
    match cs.drop n1 with
    | '-' :: cs2 =>
      let n2 := digitRun cs2
      if n2 = 0 then false
      else
        match cs2.drop n2 with
        | ':' :: _ => true
        | _ => false
    | _ => false

/-- Greedy capture of `(\d+)` followed by `.` (any char but newline) and the
dash tail: try the longest digit prefix first and backtrack to shorter ones,
exactly as the regex engine does. -/
def greedyCap (cs : List Char) : Nat → Option (List Char)
  | 0 => none
  | i + 1 =>
    match cs.drop (i + 1) with
    | c :: rest =>
        if c ≠ '\n' && matchDashTail rest then some (cs.take (i + 1))
        else greedyCap cs i
    | [] => greedyCap cs i

/-- The literal part of the pattern of line 400. -/
def litAck : List Char := "Your job-array ".data

/-- Strip a literal from the head of a char list, if present. -/
def dropLit : List Char → List Char → Option (List Char)
  | [], cs => some cs
  | _ :: _, [] => none
  | l :: ls, c :: cs => if c = l then dropLit ls cs else none

/-- Try to match the full pattern at the start of `cs`, returning the captured
group. -/
def matchAckAt (cs : List Char) : Option (List Char) :=
  match dropLit litAck cs with
  | none => none
  | some rest => greedyCap rest (digitRun rest)

/-- Leftmost match of the pattern anywhere in the line, as
`re.findall(...)[0]` sees it. -/
def findCapture : List Char → Option (List Char)
  | [] => none
  | c :: cs =>
    match matchAckAt (c :: cs) with
    | some cap => some cap
    | none => findCapture cs

/-- Job-id extraction of line 400:
`re.findall('Your job-array (\d+).\d+-\d+:.*', sge_qsub_out.split('\n')[0])[0]`.
Returns `none` where the script would raise an uncaught `IndexError`. -/
def jobIdOfAck (out : String) : Option String :=
  (findCapture (out.data.takeWhile (fun c => c ≠ '\n'))).map (fun l => String.mk l)

/-- Declarative reading of the pattern `Your job-array (\d+).\d+-\d+:.*`
occurring somewhere in a line: the literal, a non-empty digit group, one
non-newline character, digits, a dash, digits, a colon, anything. -/
def containsAckPattern (cs : List Char) : Prop :=
  ∃ pre d1 c d2 d3 post,
    cs = pre ++ litAck ++ d1 ++ c :: (d2 ++ '-' :: (d3 ++ ':' :: post)) ∧
    d1 ≠ [] ∧ d2 ≠ [] ∧ d3 ≠ [] ∧
    (∀ x ∈ d1, x.isDigit = true) ∧ (∀ x ∈ d2, x.isDigit = true) ∧
    (∀ x ∈ d3, x.isDigit = true) ∧ c ≠ '\n'

theorem digitRun_le_length : ∀ cs : List Char, digitRun cs ≤ cs.length := by
  intro cs
  induction cs with
  | nil => simp [digitRun]
  | cons c cs ih =>
      rw [digitRun]
      by_cases h : c.isDigit <;> simp [h] <;> omega

theorem digitRun_take (cs : List Char) :
    ∀ i, i ≤ digitRun cs → ∀ c ∈ cs.take i, c.isDigit = true := by
  induction cs with
  | nil => intro i _ c hc; simp at hc
  | cons a cs ih =>
      intro i hi c hc
      cases i with
      | zero => simp at hc
      | succ j =>
          rw [digitRun] at hi
          by_cases ha : a.isDigit
          · rw [List.take_succ_cons] at hc
            rcases List.mem_cons.mp hc with h | h
            · subst h; exact ha
            · exact ih j (by simp [ha] at hi; omega) c h
          · simp [ha] at hi

theorem take_ne_nil_of_pos (cs : List Char) (i : Nat) (hi : 1 ≤ i)
    (hlen : i ≤ cs.length) : cs.take i ≠ [] := by
  have : (cs.take i).length = i := by
    rw [List.length_take]
    omega
  intro h
  rw [h] at this
  simp at this
  omega

theorem matchDashTail_sound (cs : List Char) (h : matchDashTail cs = true) :
    ∃ d2 d3 post, cs = d2 ++ '-' :: (d3 ++ ':' :: post) ∧ d2 ≠ [] ∧ d3 ≠ [] ∧
      (∀ x ∈ d2, x.isDigit = true) ∧ (∀ x ∈ d3, x.isDigit = true) := by
  unfold matchDashTail at h
  by_cases h1 : digitRun cs = 0
  · simp [h1] at h
  · rw [if_neg h1] at h
    cases hd : cs.drop (digitRun cs) with
    | nil => rw [hd] at h; simp at h
    | cons a cs2 =>
        rw [hd] at h
        by_cases ha : a = '-'
        · subst ha
          simp only [] at h
          by_cases h2 : digitRun cs2 = 0
          · simp [h2] at h
          · rw [if_neg h2] at h
            cases hd2 : cs2.drop (digitRun cs2) with
            | nil => rw [hd2] at h; simp at h
            | cons b post =>
                rw [hd2] at h
                by_cases hb : b = ':'
                · subst hb
                  refine ⟨cs.take (digitRun cs), cs2.take (digitRun cs2), post, ?_, ?_, ?_, ?_, ?_⟩
                  · conv_lhs => rw [← List.take_append_drop (digitRun cs) cs]
                    rw [hd]
                    congr 1
                    congr 1
                    conv_lhs => rw [← List.take_append_drop (digitRun cs2) cs2]
                    rw [hd2]
                  · exact take_ne_nil_of_pos cs _ (by omega) (digitRun_le_length cs)
                  · exact take_ne_nil_of_pos cs2 _ (by omega) (digitRun_le_length cs2)
                  · exact digitRun_take cs _ (le_refl _)
                  · exact digitRun_take cs2 _ (le_refl _)
                · simp [hb] at h
        · simp [ha] at h

theorem greedyCap_sound (cs : List Char) :
    ∀ i cap, greedyCap cs i = some cap →
      ∃ j c rest, 1 ≤ j ∧ j ≤ i ∧ cap = cs.take j ∧ cs.drop j = c :: rest ∧
        c ≠ '\n' ∧ matchDashTail rest = true := by
  intro i
  induction i with
  | zero => intro cap h; simp [greedyCap] at h
  | succ i ih =>
      intro cap h
      rw [greedyCap] at h
      cases hd : cs.drop (i + 1) with
      | nil =>
          rw [hd] at h
          simp only [] at h
          obtain ⟨j, c, rest, hj, hji, hrest⟩ := ih cap h
          exact ⟨j, c, rest, hj, by omega, hrest⟩
      | cons c rest =>
          rw [hd] at h
          simp only [] at h
          by_cases hc : (c ≠ '\n' && matchDashTail rest) = true
          · rw [if_pos hc] at h
            obtain ⟨hc1, hc2⟩ := Bool.and_eq_true_iff.mp hc
            refine ⟨i + 1, c, rest, by omega, le_refl _, by simpa using h.symm, hd,
              by simpa using hc1, hc2⟩
          · rw [if_neg hc] at h
            obtain ⟨j, c2, rest2, hj, hji, hrest⟩ := ih cap h
            exact ⟨j, c2, rest2, hj, by omega, hrest⟩

theorem dropLit_sound : ∀ ls cs rest : List Char,
    dropLit ls cs = some rest → cs = ls ++ rest := by
  intro ls
  induction ls with
  | nil => intro cs rest h; simp [dropLit] at h; simp [h]
  | cons l ls ih =>
      intro cs rest h
      cases cs with
      | nil => simp [dropLit] at h
      | cons c cs =>
          rw [dropLit] at h
          by_cases hc : c = l
          · rw [if_pos hc] at h
            subst hc
            rw [List.cons_append]
            rw [ih cs rest h]
          · rw [if_neg hc] at h
            exact absurd h (by simp)

theorem matchAckAt_sound (cs : List Char) (cap : List Char)
    (h : matchAckAt cs = some cap) :
    ∃ d1 c d2 d3 post,
      cs = litAck ++ d1 ++ c :: (d2 ++ '-' :: (d3 ++ ':' :: post)) ∧
      d1 ≠ [] ∧ d2 ≠ [] ∧ d3 ≠ [] ∧
      (∀ x ∈ d1, x.isDigit = true) ∧ (∀ x ∈ d2, x.isDigit = true) ∧
      (∀ x ∈ d3, x.isDigit = true) ∧ c ≠ '\n' := by
  unfold matchAckAt at h
  cases hdl : dropLit litAck cs with
  | none => rw [hdl] at h; simp at h
  | some rest =>
      rw [hdl] at h
      simp only [] at h
      obtain ⟨j, c, rest2, hj, hji, hcap, hdrop, hc, htail⟩ := greedyCap_sound rest _ cap h
      obtain ⟨d2, d3, post, he, h2, h3, hd2, hd3⟩ := matchDashTail_sound rest2 htail
      have hcs : cs = litAck ++ rest := dropLit_sound _ _ _ hdl
      refine ⟨rest.take j, c, d2, d3, post, ?_, ?_, h2, h3, ?_, hd2, hd3, hc⟩
      · rw [hcs]
        rw [List.append_assoc]
        congr 2
        conv_lhs => rw [← List.take_append_drop j rest]
        rw [hdrop, he]
      · exact take_ne_nil_of_pos rest j hj (by
          have hlen := congrArg List.length hdrop
          rw [List.length_drop] at hlen
          simp at hlen
          omega)
      · exact digitRun_take rest j hji

theorem findCapture_sound : ∀ cs cap : List Char,
    findCapture cs = some cap → containsAckPattern cs := by
  intro cs
  induction cs with
  | nil => intro cap h; simp [findCapture] at h
  | cons c cs ih =>
      intro cap h
      rw [findCapture] at h
      cases hm : matchAckAt (c :: cs) with
      | some cap2 =>
          obtain ⟨d1, ch, d2, d3, post, he, h1, h2, h3, hd1, hd2, hd3, hch⟩ :=
            matchAckAt_sound _ _ hm
          exact ⟨[], d1, ch, d2, d3, post, by simpa using he, h1, h2, h3, hd1, hd2, hd3, hch⟩
      | none =>
          rw [hm] at h
          simp only [] at h
          obtain ⟨pre, d1, ch, d2, d3, post, he, hrest⟩ := ih cap h
          exact ⟨c :: pre, d1, ch, d2, d3, post, by simp [he], hrest⟩

theorem containsAckPattern_length (cs : List Char) (h : containsAckPattern cs) :
    21 ≤ cs.length := by
  obtain ⟨pre, d1, c, d2, d3, post, he, h1, h2, h3, -⟩ := h
  have hlit : litAck.length = 15 := by decide
  have hd1 : 1 ≤ d1.length := List.length_pos.mpr h1
  have hd2 : 1 ≤ d2.length := List.length_pos.mpr h2
  have hd3 : 1 ≤ d3.length := List.length_pos.mpr h3
  rw [he]
  simp only [List.length_append, List.length_cons]
  omega

/-- If the expected pattern is absent from the first line, extraction fails. -/
theorem jobIdOfAck_none (out : String)
    (h : ¬ containsAckPattern (out.data.takeWhile (fun c => c ≠ '\n'))) :
    jobIdOfAck out = none := by
  unfold jobIdOfAck
  cases hf : findCapture (out.data.takeWhile (fun c => c ≠ '\n')) with
  | none => rfl
  | some cap => exact absurd (findCapture_sound _ cap hf) h

/-- The four `-outfmt` choices (line 86-88). -/
inductive OutputFormat
  | tabular
  | pairwise
  | xml
  | extended
  deriving DecidableEq

/-- `output_file_extension` selection (lines 295-300): `tab` by default,
`xml` for xml, `txt` for pairwise. -/
def output_file_extension : OutputFormat → String
  | OutputFormat.xml => "xml"
  | OutputFormat.pairwise => "txt"
  | _ => "tab"

/-- The command-line options of `main` that drive the step-3 control flow. -/
structure Args where
  batch : String
  no_cleanup : Bool
  dont_wait : Bool
  output_format : OutputFormat
  runStep3 : Bool
  deriving DecidableEq

/-- Observable outcomes of the external commands run during step 3: exit
status of the `qsub` submission, its acknowledgment text, exit status of each
concatenation command (keyed by the artifact extension), and of `rm`.
Exit statuses of commands run through `sh -c` are naturals. -/
structure Env where
  qsubErrcode : Nat
  qsubOut : String
  catErrcode : String → Nat
  rmErrcode : Nat

/-- The uncaught exception of line 400. -/
inductive RunError
  | parseFailure
  deriving DecidableEq

/-- Observable result of a completed run: the final `global_error_code`, the
final `no_cleanup` flag, which concatenation commands were run (in order),
whether the working directory was deleted, the process exit status, and
whether the final message is the warning (line 437) rather than the success
message (line 435). -/
structure RunResult where
  global_error_code : Nat
  no_cleanup : Bool
  aggregatedExts : List String
  cleanupRan : Bool
  exitStatus : Nat
  finalWarning : Bool
  deriving DecidableEq

/-- Step-3 control flow of `main` (lines 370-441).  Batch selectors other than
`"all"` force `no_cleanup` (line 377).  A positive `qsub` exit code warns and
forces `no_cleanup` (lines 394-398).  Job-id extraction (line 400) raises an
uncaught `IndexError` when the pattern is absent.  Unless `--dont_wait`, the
three concatenation commands run unconditionally in order
`(output_file_extension, err, out)`, each positive exit code forcing
`no_cleanup`, every exit code being summed into `global_error_code`
(lines 401-418); then the working directory is removed only if `no_cleanup` is
still unset (lines 423-431).  `main` returns 0 and its caller ignores the
value, so the process exit status of a completed run is always 0
(lines 434-445). -/
def stepSubmitAndAggregate (a : Args) (e : Env) : Except RunError RunResult :=
  let noClean1 := if a.batch == "all" then a.no_cleanup else true
  if a.runStep3 then
    let gec1 := 0 + e.qsubErrcode
    let noClean2 := if e.qsubErrcode > 0 then true else noClean1
    match jobIdOfAck e.qsubOut with
    | none => Except.error RunError.parseFailure
    | some _ =>
      if a.dont_wait then
        Except.ok ⟨gec1, noClean2, [], false, 0, decide (gec1 ≠ 0)⟩
      else
        let exts := [output_file_extension a.output_format, "err", "out"]
        let p := exts.foldl
          (fun (p : Nat × Bool) ext =>
            (p.1 + e.catErrcode ext, if e.catErrcode ext > 0 then true else p.2))
          (gec1, noClean2)
        if p.2 then
          Except.ok ⟨p.1, p.2, exts, false, 0, decide (p.1 ≠ 0)⟩
        else
          Except.ok ⟨p.1 + e.rmErrcode, p.2, exts, true, 0,
            decide (p.1 + e.rmErrcode ≠ 0)⟩
  else
    Except.ok ⟨0, noClean1, [], false, 0, false⟩

/-- A successful scheduler acknowledgment, as in the spec scenario. -/
def ackOk : String := "Your job-array 12345.1-3:1 has been submitted"

/-- A default synchronous full run. -/
def argsAllSync : Args := ⟨"all", false, false, OutputFormat.tabular, true⟩

/-- An environment in which only the stderr-category concatenation fails. -/
def envCatErrFail : Env := ⟨0, ackOk, fun ext => if ext = "err" then 1 else 0, 0⟩

/-- An environment in which every external command succeeds. -/
def envAllOk : Env := ⟨0, ackOk, fun _ => 0, 0⟩

/-- C1 (counterexample): a completed synchronous run in which the stderr
concatenation exited 1 ends with `global_error_code = 1` but process exit
status 0 — the claim's "non-zero accumulator gives non-zero exit status" is
false on the code, which always `return 0`s from `main` and ignores the
value at top level. -/
theorem claim_C1_counterexample :
    stepSubmitAndAggregate argsAllSync envCatErrFail =
      Except.ok ⟨1, true, ["tab", "err", "out"], false, 0, true⟩ := by
  rfl

/-- C1 (amended): the exit status of every completed run is 0 regardless of
the Error Accumulator; a non-zero accumulator is signalled only by the final
warning message on stderr (lines 434-441). -/
theorem claim_C1_exit_status (a : Args) (e : Env) (r : RunResult)
    (h : stepSubmitAndAggregate a e = Except.ok r) :
    r.exitStatus = 0 ∧ (r.finalWarning = true ↔ r.global_error_code ≠ 0) := by
  unfold stepSubmitAndAggregate at h
  simp only [] at h
  repeat' (first | split at h | simp only [] at h)
  all_goals
    first
      | exact Except.noConfusion h
      | (injection h with h2
         subst h2
         refine ⟨rfl, ?_⟩
         simp [decide_eq_true_iff] <;> tauto)

theorem claim_C1_witness :
    (⟨1, true, ["tab", "err", "out"], false, 0, true⟩ : RunResult).exitStatus = 0 ∧
      ((⟨1, true, ["tab", "err", "out"], false, 0, true⟩ : RunResult).finalWarning = true ↔
        (⟨1, true, ["tab", "err", "out"], false, 0, true⟩ : RunResult).global_error_code ≠ 0) :=
  claim_C1_exit_status argsAllSync envCatErrFail _ (by rfl)

/-- C4: in a synchronous run in which some concatenation command exits
non-zero, the Error Accumulator ends non-zero (final status is the warning /
PartialFailure message), all three categories' concatenations are still
executed (the loop of lines 407-418 never aborts), and the working-directory
deletion of lines 423-431 is skipped. -/
theorem claim_C4_concat_failure (a : Args) (e : Env) (r : RunResult)
    (h3 : a.runStep3 = true) (hw : a.dont_wait = false)
    (hfail : e.catErrcode (output_file_extension a.output_format) ≠ 0 ∨
      e.catErrcode "err" ≠ 0 ∨ e.catErrcode "out" ≠ 0)
    (h : stepSubmitAndAggregate a e = Except.ok r) :
    r.global_error_code ≠ 0 ∧ r.finalWarning = true ∧
      r.aggregatedExts = [output_file_extension a.output_format, "err", "out"] ∧
      r.cleanupRan = false := by
  unfold stepSubmitAndAggregate at h
  rw [h3, hw] at h
  simp only [if_true, Bool.false_eq_true, if_false] at h
  cases hjid : jobIdOfAck e.qsubOut with
  | none => rw [hjid] at h; exact Except.noConfusion h
  | some jid =>
      rw [hjid] at h
      simp only [List.foldl_cons, List.foldl_nil] at h
      have hflag :
          (if e.catErrcode "out" > 0 then true
           else if e.catErrcode "err" > 0 then true
           else if e.catErrcode (output_file_extension a.output_format) > 0 then true
           else if e.qsubErrcode > 0 then true
           else if (a.batch == "all") = true then a.no_cleanup else true) = true := by
        rcases hfail with hf | hf | hf <;>
          (repeat' split) <;> simp_all
      rw [hflag] at h
      simp only [if_true] at h
      injection h with h2
      subst h2
      refine ⟨?_, ?_, rfl, rfl⟩
      · simp only []
        rcases hfail with hf | hf | hf <;> omega
      · simp only [decide_eq_true_iff]
        rcases hfail with hf | hf | hf <;> omega

theorem claim_C4_witness :
    (⟨1, true, ["tab", "err", "out"], false, 0, true⟩ : RunResult).global_error_code ≠ 0 ∧
      (⟨1, true, ["tab", "err", "out"], false, 0, true⟩ : RunResult).finalWarning = true ∧
      (⟨1, true, ["tab", "err", "out"], false, 0, true⟩ : RunResult).aggregatedExts =
        [output_file_extension argsAllSync.output_format, "err", "out"] ∧
      (⟨1, true, ["tab", "err", "out"], false, 0, true⟩ : RunResult).cleanupRan = false :=
  claim_C4_concat_failure argsAllSync envCatErrFail _ rfl rfl
    (Or.inr (Or.inl (by decide))) (by rfl)

/-- C9: when the caller supplies a batch selector other than `"all"`,
line 377 forces `no_cleanup`, so the working directory is never deleted —
even if every external command succeeds and the accumulator stays zero. -/
theorem claim_C9_explicit_batch (a : Args) (e : Env) (r : RunResult)
    (hb : a.batch ≠ "all") (h : stepSubmitAndAggregate a e = Except.ok r) :
    r.cleanupRan = false := by
  have hbeq : (a.batch == "all") = false := by
    simp [hb]
  unfold stepSubmitAndAggregate at h
  rw [hbeq] at h
  simp only [Bool.false_eq_true, if_false, ite_self] at h
  repeat' (first | split at h | simp only [ite_self, List.foldl_cons, List.foldl_nil] at h)
  all_goals
    first
      | exact Except.noConfusion h
      | (injection h with h2; subst h2; rfl)
      | simp_all

theorem claim_C9_witness :
    stepSubmitAndAggregate ⟨"1-5", false, false, OutputFormat.tabular, true⟩ envAllOk =
      Except.ok ⟨0, true, ["tab", "err", "out"], false, 0, false⟩ ∧
    (⟨0, true, ["tab", "err", "out"], false, 0, false⟩ : RunResult).cleanupRan = false ∧
    (⟨0, true, ["tab", "err", "out"], false, 0, false⟩ : RunResult).global_error_code = 0 :=
  ⟨by rfl,
    claim_C9_explicit_batch ⟨"1-5", false, false, OutputFormat.tabular, true⟩ envAllOk _
      (by decide) (by rfl), rfl⟩

/-- C6: the spec's scenario acknowledgment yields job id `"12345"`; and for
any acknowledgment whose first line lacks the expected pattern, extraction
fails and the run dies with the uncaught `IndexError` of line 400 before any
aggregation can happen. -/
theorem claim_C6_job_id :
    jobIdOfAck "Your job-array 12345.1-3:1 has been submitted" = some "12345" ∧
    ∀ (a : Args) (e : Env), a.runStep3 = true →
      ¬ containsAckPattern (e.qsubOut.data.takeWhile (fun c => c ≠ '\n')) →
      stepSubmitAndAggregate a e = Except.error RunError.parseFailure := by
  refine ⟨by decide, ?_⟩
  intro a e h3 hp
  have hnone : jobIdOfAck e.qsubOut = none := jobIdOfAck_none e.qsubOut hp
  unfold stepSubmitAndAggregate
  rw [h3, hnone]
  simp

theorem claim_C6_witness :
    stepSubmitAndAggregate argsAllSync ⟨0, "qsub: error", fun _ => 0, 0⟩ =
      Except.error RunError.parseFailure :=
  claim_C6_job_id.2 argsAllSync ⟨0, "qsub: error", fun _ => 0, 0⟩ rfl
    (fun hp => absurd (containsAckPattern_length _ hp) (by decide))

/-- Byte-wise (C-locale) string order, as the shell sorts the expansions of
the glob `{outdir}/{jobid}.*.{extension}` of line 408. -/
def bytesLe : List Char → List Char → Bool
  | [], _ => true
  | _ :: _, [] => false
  | a :: as, b :: bs =>
    if a.toNat < b.toNat then true
    else if b.toNat < a.toNat then false
    else bytesLe as bs

/-- Insertion into a byte-sorted list. -/
def insertByBytes (x : List Char) : List (List Char) → List (List Char)
  | [] => [x]
  | y :: ys => if bytesLe x y then x :: y :: ys else y :: insertByBytes x ys

/-- Sorted order in which the shell glob hands the matching file names to the
concatenation command. -/
def globSort (names : List (List Char)) : List (List Char) :=
  names.foldr insertByBytes []

/-- Name of the per-task artifact `$JOB_ID.$SGE_TASK_ID.{subname}.{extension}`
(line 363 and glob of line 408). -/
def taskFileName (jobid : List Char) (idx : Nat) (basename ext : List Char) : List Char :=
  jobid ++ '.' :: ((toString idx).data ++ '.' :: (basename ++ '.' :: ext))

/-- The order in which the task artifacts for tasks `1..n` reach the
concatenation command: glob (byte-sorted) order of their file names. -/
def globConcatOrder (jobid basename ext : List Char) (n : Nat) : List (List Char) :=
  globSort ((List.range' 1 n).map (fun i => taskFileName jobid i basename ext))

/-- C2 (code evaluated at the failing input): with 11 realized tasks the glob
hands the artifacts over in byte order `1, 10, 11, 2, ..., 9` — not in the
ascending numeric task order `1, 2, ..., 11` that the claim requires — so the
concatenated bytes differ from the claimed artifact whenever task bodies
differ. -/
theorem claim_C2_glob_order_lexical :
    globConcatOrder "77".data "q".data "tab".data 11 =
      [1, 10, 11, 2, 3, 4, 5, 6, 7, 8, 9].map
        (fun i => taskFileName "77".data i "q".data "tab".data) ∧
    ((globConcatOrder "77".data "q".data "tab".data 11).map
        (fun name => name ++ ['\n'])).flatten ≠
      (((List.range' 1 11).map (fun i => taskFileName "77".data i "q".data "tab".data)).map
        (fun name => name ++ ['\n'])).flatten := by
  constructor
  · decide
  · decide

/-- The separator printed by the pairwise-format concatenation command
`awk 'FNR==1 ... print ...'` of line 405: the printed string is
`"\n---------------------\n"` and `print` appends one more newline, so three
lines are emitted — an empty line, 21 dashes, an empty line. -/
def sepLines : List (List Char) := [[], "---------------------".data, []]

/-- Output of the pairwise concatenation command (line 405): `FNR==1` fires on
the first line of every non-empty input file, printing the separator block
before that file's lines; every line is then echoed unchanged.  An empty file
contributes nothing (it has no first line). -/
def awkSepConcat (files : List (List (List Char))) : List (List Char) :=
  (files.map (fun f => if f = [] then [] else sepLines ++ f)).flatten

/-- Output of plain `cat` (lines 403, 408): byte-for-byte concatenation. -/
def catConcatLines (files : List (List (List Char))) : List (List Char) :=
  files.flatten

/-- Aggregated artifact for one result category, as a function of the task
files' line contents (lines 402-413): `awk` with separators for the pairwise
format, plain `cat` otherwise. -/
def aggregate_category (fmt : OutputFormat) (files : List (List (List Char))) :
    List (List Char) :=
  if fmt = OutputFormat.pairwise then awkSepConcat files else catConcatLines files

/-- C8 (counterexample): for the pairwise format the separator block is also
printed before the FIRST task body (FNR==1 fires on file 1 too), so the
aggregate of two one-line bodies `a` and `b` is not
`a`-body ++ separator ++ `b`-body as the claim's "only between consecutive
bodies" requires. -/
theorem claim_C8_counterexample :
    aggregate_category OutputFormat.pairwise [[['a']], [['b']]] ≠
      [['a']] ++ sepLines ++ [['b']] := by
  decide

/-- C8 (amended): for the pairwise format the separator block is inserted
before every non-empty task body — hence between consecutive bodies and
additionally before the first — and for every other format the bodies are
concatenated byte-for-byte with no separator. -/
theorem claim_C8_separator_placement (fmt : OutputFormat) (files : List (List (List Char)))
    (hne : ∀ f ∈ files, f ≠ []) :
    (fmt = OutputFormat.pairwise →
      aggregate_category fmt files = (files.map (fun f => sepLines ++ f)).flatten) ∧
    (fmt ≠ OutputFormat.pairwise →
      aggregate_category fmt files = files.flatten) := by
  constructor
  · intro hf
    subst hf
    rw [aggregate_category, if_pos rfl, awkSepConcat]
    congr 1
    apply List.map_congr_left
    intro f hfm
    rw [if_neg (hne f hfm)]
  · intro hf
    rw [aggregate_category, if_neg hf, catConcatLines]

theorem claim_C8_witness :
    aggregate_category OutputFormat.pairwise [[['a']], [['b']]] =
      ([[['a']], [['b']]].map (fun f => sepLines ++ f)).flatten ∧
    aggregate_category OutputFormat.tabular [[['a']], [['b']]] =
      [[['a']], [['b']]].flatten :=
  ⟨(claim_C8_separator_placement OutputFormat.pairwise [[['a']], [['b']]]
      (by decide)).1 rfl,
    (claim_C8_separator_placement OutputFormat.tabular [[['a']], [['b']]]
      (by decide)).2 (by decide)⟩
